import Mathlib

/-!
Verification of the `antontsv/backup` command-line backup tool.

The Go sources are shallowly embedded: Go strings become `List Char`,
Go `int64` becomes `Int` (file sizes are non-negative, and no value in
the modelled code approaches 2^63, so overflow wrapping is immaterial),
channels delivering a finite set of outcomes become explicit lists of
those outcomes, and a Go `nil`-pointer dereference panic becomes
`Except.error ()`.  Every definition below mirrors a specific function
of the repository, named after it where possible:

* `parseDest`       — `parseDest` in the main package
* `walkSources`     — `walkSources` (sequential model; the fatal
                       `log.Fatalf` is the `true` flag, which stops the
                       process, so nothing after it is emitted)
* `relativeName`    — the `base`/`TrimPrefix` computation of
                       `walkSources` composed with the leading-slash
                       trim done in `runBackups`
* `destFor`, `runBackups` — the per-unit fan-out of `runBackups`;
                       the `wg.Wait()` barrier of the engine makes one
                       full set of uploads for a unit complete before the next unit
                       starts, which the sequential list-of-rounds
                       model encodes directly
* `multiPartUpload`, `chunkLoop`, `clampEnd` — the chunked upload of
                       `awsglacier.multiPartUpload`
* `launchedParts`   — the part-launching loop of `multiPartUpload`
                       (lines 97–105), given an explicit oracle saying
                       when the cancellation token fired; the Go loop
                       contains no context check, so the definition
                       ignores the oracle exactly as the loop does
* `collectErrs`, `glacierCommit` — the error-collection and
                       finalize decision of `multiPartUpload`
* `GetKeyValues`    — `cloud.GetKeyValues`
-/

/-- Go `strings.SplitN(s, sep, 2)` for a one-character separator:
the part before the first `sep`, and, when `sep` occurs, the remainder. -/
def splitFirst (sep : Char) : List Char → List Char × Option (List Char)
  | [] => ([], none)
  | c :: cs =>
      if c = sep then ([], some cs)
      else
        let r := splitFirst sep cs
        (c :: r.1, r.2)

/-- Go `strings.Split(s, sep)` for a one-character separator. -/
def splitAll (sep : Char) : List Char → List (List Char)
  | [] => [[]]
  | c :: cs =>
      if c = sep then [] :: splitAll sep cs
      else
        match splitAll sep cs with
        | [] => [[c]]
        | g :: gs => (c :: g) :: gs

/-- Go `strings.Join(groups, sep)` for a one-character separator. -/
def joinSep (sep : Char) : List (List Char) → List Char
  | [] => []
  | [g] => g
  | g :: gs => g ++ sep :: joinSep sep gs

/-- Go `strings.TrimPrefix(s, pre)`: drop `pre` when it heads `s`. -/
def trimPre (s pre : List Char) : List Char :=
  if pre.isPrefixOf s then s.drop pre.length else s

/-- Go `strings.TrimPrefix(s, "/")`. -/
def trimLeadSlash (s : List Char) : List Char :=
  trimPre s ['/']

/-- Go `strings.HasSuffix(s, "/")`. -/
def endsWithSlash (s : List Char) : Bool :=
  s.getLast? = some '/'

/-- Whitespace recognised by Go `strings.TrimSpace` (ASCII part). -/
def isSpaceCh (c : Char) : Bool :=
  c = ' ' || c = '\t' || c = '\n' || c = '\r' || c = '\x0b' || c = '\x0c'

/-- Go `strings.TrimSpace` on ASCII input. -/
def trimSpace (s : List Char) : List Char :=
  ((s.dropWhile isSpaceCh).reverse.dropWhile isSpaceCh).reverse

/-- Go `strings.LastIndex(s, c)` for a one-character needle: the index
of the last occurrence, `-1` when absent. -/
def lastIndexOf (c : Char) : List Char → Int
  | [] => -1
  | a :: rest =>
      let r := lastIndexOf c rest
      if 0 ≤ r then r + 1
      else if a = c then 0 else -1

/-- `parseDest` from the main package: split the destination at the first
colon into bucket and path; the path is split on `/`, empty segments are
dropped, and a trailing `/` is kept when the raw path portion was not
exactly "/" and the whole destination ended in `/`. -/
def parseDest (dest : List Char) : List Char × List Char :=
  let d := splitFirst ':' dest
  let pe : List (List Char) × List Char :=
    match d.2 with
    | none => ([], [])
    | some d1 =>
        ((splitAll '/' d1).filter (fun part => part ≠ ([] : List Char)),
          if d1 ≠ ['/'] ∧ endsWithSlash dest then ['/'] else [])
  (d.1, trimLeadSlash (joinSep '/' pe.1) ++ pe.2)

/-- The `prefix` computed at the top of `walkSources`:
`idx := strings.LastIndex(source, "/"); if idx > 0 { prefix = source[0:idx] }`. -/
def sourceDirOf (source : List Char) : List Char :=
  if 0 < lastIndexOf '/' source then source.take (lastIndexOf '/' source).toNat else []

/-- The remote-relative name of a walked entry: `walkSources` stores
`strings.TrimPrefix(path, prefix)` in the unit, and `runBackups` then
strips one leading `/` with `strings.TrimPrefix(f.base, "/")`. -/
def relativeName (source entry : List Char) : List Char :=
  trimLeadSlash (trimPre entry (sourceDirOf source))

/-- Spec-side definition (not from the code): the leaf (base) name of a
source path — everything after the last `/`.  The specification says a
relative name of a recursive unit is the path of the entry relative to the
parent of the root, i.e. `leafOf root ++ "/" ++ rest`. -/
def leafOf (source : List Char) : List Char :=
  (source.reverse.takeWhile (fun c => c != '/')).reverse

/-- A backup unit as emitted on the `files` channel by `walkSources`. -/
structure SrcFile where
  path : List Char
  base : List Char
deriving DecidableEq, Repr

/-- A source argument as seen by `walkSources`: a plain file, or a
directory together with the relative paths of the non-directory entries
`filepath.Walk` finds under it (each walked path is the root joined
with the relative path of the entry). -/
inductive SrcNode where
  | plain (path : List Char)
  | dir (path : List Char) (entries : List (List Char))
deriving DecidableEq, Repr

/-- Whether `os.Stat` reports a directory for this source. -/
def isDirNode : SrcNode → Bool
  | .plain _ => false
  | .dir _ _ => true

/-- The units one source contributes when no fatal error occurs. -/
def walkOne : SrcNode → List SrcFile
  | .plain p => [⟨p, trimPre p (sourceDirOf p)⟩]
  | .dir p es => es.map (fun e => ⟨p ++ '/' :: e, trimPre (p ++ '/' :: e) (sourceDirOf p)⟩)

/-- `walkSources`, sequentially: sources are processed in order; a
directory without the recursive flag hits `log.Fatalf`, which kills the
process — the second component records that fatal exit, and nothing
after it is emitted.  Cancellation and stat errors are out of scope of
the claims settled here. -/
def walkSources (recursive : Bool) : List SrcNode → List SrcFile × Bool
  | [] => ([], false)
  | s :: rest =>
      if isDirNode s && !recursive then ([], true)
      else
        let r := walkSources recursive rest
        (walkOne s ++ r.1, r.2)

/-- The per-backend destination computed inside `runBackups`:
`dest := path; base := TrimPrefix(f.base, "/")`; append `base` when
`path` ends in `/`, use `base` alone when `path` is empty, otherwise
use `path` verbatim. -/
def destFor (path base0 : List Char) : List Char :=
  let base := trimLeadSlash base0
  if endsWithSlash path then path ++ base
  else if path.length ≤ 0 then base
  else path

/-- The backends `runBackups` actually builds: providers that are both
selected (`cnf.selected`) and configured (`cnf.ini != nil`). -/
def configuredBackends (providers : List (List Char × Bool × Bool)) : List (List Char) :=
  (providers.filter (fun p => p.2.1 && p.2.2)).map (fun p => p.1)

/-- One `upload` invocation handed to a backend goroutine. -/
structure Invocation where
  backend : List Char
  file : List Char
  dest : List Char
deriving DecidableEq, Repr

/-- The upload invocations of `runBackups`, one round per unit: for each
file received, `upload` is invoked once per backend, and `wg.Wait()`
blocks until the whole round has reported before the next file is taken. -/
def runBackups (backends : List (List Char)) (path : List Char) (files : List SrcFile) :
    List (List Invocation) :=
  files.map (fun f => backends.map (fun b => ⟨b, f.path, destFor path f.base⟩))

/-- Megabyte, as in `awsglacier`. -/
def MB : Int := 1024 * 1024

/-- The fixed part size `chunkSize := int64(16 * MB)` of `multiPartUpload`. -/
def chunkSizeGlacier : Int := 16 * MB

/-- The end-of-range clamp inside the part loop:
`if end > size { end = size - 1 }`. -/
def clampEnd (size e : Int) : Int :=
  if size < e then size - 1 else e

/-- The part loop of `multiPartUpload`:
`for start, end, i := int64(0), chunkSize-1, 0; start < size;
start, end, i = start+chunkSize, end+chunkSize, i+1` producing
`(start, end, n)` with `n = end - start + 1` after the clamp.  The loop
variable `end` is threaded through mutated, exactly as in Go. -/
def chunkLoop (size P : Int) (hP : 0 < P) (start e : Int) : List (Int × Int × Int) :=
  if _h : start < size then
    (start, clampEnd size e, clampEnd size e - start + 1) ::
      chunkLoop size P hP (start + P) (clampEnd size e + P)
  else []
termination_by (size - start).toNat
decreasing_by simp_wf; omega

/-- The full sequence of part ranges generated for an object of the
given size with part size `P`. -/
def chunkPlan (size P : Int) (hP : 0 < P) : List (Int × Int × Int) :=
  chunkLoop size P hP 0 (P - 1)

/-- The chunk plan at the fixed 16 MB part size of the Glacier backend. -/
def chunkPlanGlacier (size : Int) : List (Int × Int × Int) :=
  chunkPlan size chunkSizeGlacier (by decide)

/-- Which path `multiPartUpload` takes for a given object size. -/
inductive UploadMode where
  | single
  | multipart (ranges : List (Int × Int × Int))
deriving DecidableEq, Repr

/-- The mode decision and plan of `multiPartUpload`:
`chunks := int(size / chunkSize); if chunks < 1 { return singleUpload }`,
otherwise a multipart session is initiated and the part loop runs.
Go division truncates toward zero, hence `Int.tdiv`. -/
def multiPartUpload (size : Int) : UploadMode :=
  if Int.tdiv size chunkSizeGlacier < 1 then .single
  else .multipart (chunkPlanGlacier size)

set_option linter.unusedVariables false in
/-- The parts actually launched by the part loop, given an oracle
`cancelBefore i` telling whether the process-wide cancellation token had
already fired when part `i` was about to be launched.  The Go loop
(lines 97–105 of `awsglacier.go`) contains no check of the context, so
the launched set does not depend on the oracle. -/
def launchedParts (size : Int) (cancelBefore : Nat → Bool) : List (Int × Int × Int) :=
  chunkPlanGlacier size

/-- Spec-side definition (not from the code): the launch sequence the
specification describes — parts are launched in order, and launching
stops as soon as the cancellation token is observed. -/
def takeUntilCancel (cancelBefore : Nat → Bool) : Nat → List (Int × Int × Int) → List (Int × Int × Int)
  | _, [] => []
  | i, x :: xs => if cancelBefore i then [] else x :: takeUntilCancel cancelBefore (i + 1) xs

/-- Spec-side definition (not from the code): the parts a
cancellation-respecting launcher would start. -/
def launchedPartsSpec (size : Int) (cancelBefore : Nat → Bool) : List (Int × Int × Int) :=
  takeUntilCancel cancelBefore 0 (chunkPlanGlacier size)

/-- One step of the error accumulation in `multiPartUpload`:
`errs = fmt.Sprintf("chunk error: %v; %s", err, errs)`. -/
def chunkErrMsg (e errs : List Char) : List Char :=
  "chunk error: ".toList ++ e ++ "; ".toList ++ errs

/-- Draining the `errorc` channel after `wg.Wait()` has closed it:
`received` lists, in arrival order, the non-nil errors the part
goroutines sent. -/
def collectErrs (received : List (List Char)) : List Char :=
  received.foldl (fun errs e => chunkErrMsg e errs) []

/-- The message `multiPartUpload` substitutes when the context was
canceled. -/
def canceledMsg : List Char :=
  "Operation was canceled".toList

/-- The finalize decision of `multiPartUpload`: collect the per-part
outcome, overwrite with the cancellation message when the context was
canceled, and call `CompleteMultipartUpload` only when the resulting
error string is empty. -/
def glacierCommit (received : List (List Char)) (canceled : Bool) : Bool :=
  let errs := collectErrs received
  let errs2 := if canceled then canceledMsg else errs
  errs2.isEmpty

/-- `cloud.GetKeyValues`.  The INI section is modelled as a partial map
from key to raw value (`none` = `Haskey` false).  The result is the
`(values, err)` pair, or `Except.error ()` for the run-time panic that
occurs when the empty-values branch evaluates `err.Error()` on a nil
`err`. -/
def GetKeyValues (keys : List (List Char)) (cnf : List Char → Option (List Char)) :
    Except Unit (List (List Char × List Char) × Option (List Char)) :=
  let missing := keys.filter (fun k => (cnf k).isNone)
  let empty := keys.filter (fun k =>
    match cnf k with
    | some v => (trimSpace v).isEmpty
    | none => false)
  let values := keys.filterMap (fun k =>
    match cnf k with
    | some v => if (trimSpace v).isEmpty then none else some (k, trimSpace v)
    | none => none)
  let err : Option (List Char) :=
    if missing ≠ [] then
      some ("missing required config entries: ".toList ++ joinSep ',' missing)
    else none
  if empty ≠ [] then
    match err with
    | none => Except.error ()
    | some m =>
        Except.ok (values,
          some ("required config entries with empty values: ".toList ++
            joinSep ',' empty ++ ',' :: m))
  else Except.ok (values, err)

theorem splitFirst_fst_not_mem (sep : Char) (l : List Char) : sep ∉ (splitFirst sep l).1 := by
  induction l with
  | nil => simp [splitFirst]
  | cons c cs ih =>
      simp only [splitFirst]
      by_cases h : c = sep
      · simp [h]
      · simp only [if_neg h, List.mem_cons]
        rintro (h1 | h1)
        · exact h h1.symm
        · exact ih h1

theorem splitFirst_append_sep (sep : Char) (b t : List Char) (hb : sep ∉ b) :
    splitFirst sep (b ++ sep :: t) = (b, some t) := by
  induction b with
  | nil => simp [splitFirst]
  | cons c cs ih =>
      have hc : ¬ c = sep := fun h => hb (by simp [h])
      have ih2 := ih (fun h => hb (List.mem_cons_of_mem _ h))
      simp [splitFirst, hc, ih2]

theorem splitAll_ne_nil (sep : Char) (l : List Char) : splitAll sep l ≠ [] := by
  induction l with
  | nil => simp [splitAll]
  | cons c cs _ =>
      simp only [splitAll]
      by_cases h : c = sep
      · simp [h]
      · simp only [if_neg h]
        cases hs : splitAll sep cs with
        | nil => simp
        | cons g gs => simp

theorem not_mem_of_mem_splitAll (sep : Char) (l : List Char) (g : List Char)
    (hg : g ∈ splitAll sep l) : sep ∉ g := by
  induction l generalizing g with
  | nil =>
      simp only [splitAll, List.mem_singleton] at hg
      simp [hg]
  | cons c cs ih =>
      simp only [splitAll] at hg
      by_cases h : c = sep
      · rw [if_pos h] at hg
        rcases List.mem_cons.1 hg with h1 | h1
        · simp [h1]
        · exact ih g h1
      · rw [if_neg h] at hg
        cases hs : splitAll sep cs with
        | nil => exact absurd hs (splitAll_ne_nil sep cs)
        | cons g0 gs0 =>
            rw [hs] at hg
            rcases List.mem_cons.1 hg with h1 | h1
            · subst h1
              intro hmem
              rcases List.mem_cons.1 hmem with h2 | h2
              · exact h h2.symm
              · exact ih g0 (by rw [hs]; exact List.mem_cons_self _ _) h2
            · exact ih g (by rw [hs]; exact List.mem_cons_of_mem _ h1)

theorem splitAll_of_not_mem (sep : Char) (g : List Char) (hg : sep ∉ g) :
    splitAll sep g = [g] := by
  induction g with
  | nil => simp [splitAll]
  | cons c cs ih =>
      have hc : ¬ c = sep := fun h => hg (by simp [h])
      have ih2 := ih (fun h => hg (List.mem_cons_of_mem _ h))
      simp [splitAll, hc, ih2]

theorem splitAll_append_cons (sep : Char) (g t : List Char) (hg : sep ∉ g) :
    splitAll sep (g ++ sep :: t) = g :: splitAll sep t := by
  induction g with
  | nil => simp [splitAll]
  | cons c cs ih =>
      have hc : ¬ c = sep := fun h => hg (by simp [h])
      have ih2 := ih (fun h => hg (List.mem_cons_of_mem _ h))
      simp only [List.cons_append, splitAll, if_neg hc, ih2]
      cases hs : splitAll sep t <;> simp_all

theorem splitAll_joinSep (sep : Char) (gs : List (List Char)) (hne : gs ≠ [])
    (hmem : ∀ g ∈ gs, sep ∉ g) : splitAll sep (joinSep sep gs) = gs := by
  induction gs with
  | nil => simp at hne
  | cons g rest ih =>
      cases rest with
      | nil =>
          simp only [joinSep]
          exact splitAll_of_not_mem sep g (hmem g (List.mem_cons_self _ _))
      | cons r rs =>
          have h1 : joinSep sep (g :: r :: rs) = g ++ sep :: joinSep sep (r :: rs) := rfl
          rw [h1, splitAll_append_cons sep g _ (hmem g (List.mem_cons_self _ _)),
            ih (by simp) (fun x hx => hmem x (List.mem_cons_of_mem _ hx))]

theorem splitAll_concat_sep (sep : Char) (l : List Char) :
    splitAll sep (l ++ [sep]) = splitAll sep l ++ [[]] := by
  induction l with
  | nil => simp [splitAll]
  | cons c cs ih =>
      by_cases h : c = sep
      · simp only [List.cons_append, splitAll, if_pos h]
        rw [show splitAll sep (cs.append [sep]) = splitAll sep cs ++ [[]] from ih]
      · simp only [List.cons_append, splitAll, if_neg h]
        rw [show splitAll sep (cs.append [sep]) = splitAll sep cs ++ [[]] from ih]
        cases hs : splitAll sep cs with
        | nil => exact absurd hs (splitAll_ne_nil sep cs)
        | cons g gs => simp

theorem joinSep_cons_head? (sep : Char) (g : List Char) (gs : List (List Char)) (hg : g ≠ []) :
    (joinSep sep (g :: gs)).head? = g.head? := by
  cases gs <;> cases g <;> simp_all [joinSep]

theorem joinSep_concat_getLast? (sep : Char) (gs : List (List Char)) (g : List Char)
    (hg : g ≠ []) : (joinSep sep (gs ++ [g])).getLast? = g.getLast? := by
  induction gs with
  | nil => simp [joinSep]
  | cons x xs ih =>
      cases xs with
      | nil =>
          show (x ++ sep :: g).getLast? = g.getLast?
          rw [List.getLast?_append_of_ne_nil x (by simp)]
          cases g with
          | nil => simp at hg
          | cons a as =>
              have h2 : (sep :: a :: as : List Char) = [sep] ++ a :: as := rfl
              rw [h2, List.getLast?_append_of_ne_nil [sep] (by simp)]
      | cons y ys =>
          have hgl : g.getLast?.isSome := by
            cases g with
            | nil => simp at hg
            | cons a as => simp [List.getLast?_isSome]
          have hL : joinSep sep (y :: ys ++ [g]) ≠ [] := by
            intro h0
            rw [h0] at ih
            simp only [List.getLast?_nil] at ih
            rw [← ih] at hgl
            simp at hgl
          show (x ++ sep :: joinSep sep (y :: ys ++ [g])).getLast? = g.getLast?
          rw [List.getLast?_append_of_ne_nil x (by simp)]
          cases hc : joinSep sep (y :: ys ++ [g]) with
          | nil => exact absurd hc hL
          | cons a as =>
              have h2 : (sep :: a :: as : List Char) = [sep] ++ a :: as := rfl
              rw [h2, List.getLast?_append_of_ne_nil [sep] (by simp), ← hc, ih]

theorem trimLeadSlash_nil : trimLeadSlash [] = [] := rfl

theorem trimLeadSlash_cons_ne (c : Char) (l : List Char) (hc : c ≠ '/') :
    trimLeadSlash (c :: l) = c :: l := by
  have h : ¬ (['/'].isPrefixOf (c :: l) = true) := by
    simp [List.isPrefixOf]
    intro h0
    exact hc h0.symm
  simp [trimLeadSlash, trimPre, h]

theorem trimLeadSlash_cons_slash (l : List Char) : trimLeadSlash ('/' :: l) = l := by
  simp [trimLeadSlash, trimPre, List.isPrefixOf]

theorem endsWithSlash_concat_colon (b : List Char) : endsWithSlash (b ++ [':']) = false := by
  simp [endsWithSlash, List.getLast?_concat]

theorem endsWithSlash_append_colon (b p : List Char) (hp : p ≠ []) :
    endsWithSlash (b ++ ':' :: p) = endsWithSlash p := by
  unfold endsWithSlash
  rw [List.getLast?_append_of_ne_nil b (by simp)]
  have h2 : (':' :: p : List Char) = [':'] ++ p := rfl
  rw [h2, List.getLast?_append_of_ne_nil [':'] hp]

theorem parseDest_colon_end (b : List Char) (hb : ':' ∉ b) : parseDest (b ++ [':']) = (b, []) := by
  have h1 : splitFirst ':' (b ++ [':']) = (b, some []) := by
    have h0 := splitFirst_append_sep ':' b [] hb
    simpa using h0
  simp [parseDest, h1, endsWithSlash_concat_colon, splitAll, joinSep, trimLeadSlash_nil]

theorem head?_mem_of_eq (l : List Char) (c : Char) (h : l.head? = some c) : c ∈ l := by
  cases l with
  | nil => simp at h
  | cons a as =>
      simp only [List.head?_cons, Option.some.injEq] at h
      simp [← h]

/-- C7 (amended): destination normalization is idempotent for every
input whose parsed path is not the single string "/" — re-parsing
`container ++ ":" ++ path` returns the same `(container, path)` pair.
(The excluded case is the counterexample `c7_counterexample`: inputs
whose path portion is a run of two or more slashes parse to path "/",
which re-parses to "".) -/
theorem c7_parseDest_idempotent_amended (s : List Char) (h : (parseDest s).2 ≠ ['/']) :
    parseDest ((parseDest s).1 ++ ':' :: (parseDest s).2) = parseDest s := by
  have hbmem : ':' ∉ (splitFirst ':' s).1 := splitFirst_fst_not_mem ':' s
  rcases hd : splitFirst ':' s with ⟨b, r⟩
  rw [hd] at hbmem
  simp only at hbmem
  cases r with
  | none =>
      have hps : parseDest s = (b, []) := by
        simp [parseDest, hd, joinSep, trimLeadSlash_nil]
      rw [hps]
      simpa using parseDest_colon_end b hbmem
  | some d1 =>
      have hps : parseDest s = (b, trimLeadSlash (joinSep '/'
          ((splitAll '/' d1).filter (fun part => part ≠ ([] : List Char)))) ++
          (if d1 ≠ ['/'] ∧ endsWithSlash s then ['/'] else [])) := by
        simp only [parseDest, hd]
      generalize hP : (splitAll '/' d1).filter (fun part => part ≠ ([] : List Char)) = parts at hps
      have hmem : ∀ g ∈ parts, g ≠ [] ∧ '/' ∉ g := by
        intro g hg
        rw [← hP] at hg
        refine ⟨?_, not_mem_of_mem_splitAll '/' d1 g (List.mem_of_mem_filter hg)⟩
        have h0 := List.of_mem_filter hg
        simpa using h0
      rw [hps] at h ⊢
      generalize hE : (if d1 ≠ ['/'] ∧ endsWithSlash s then (['/'] : List Char) else []) = e at h ⊢
      have h2 : trimLeadSlash (joinSep '/' parts) ++ e ≠ ['/'] := h
      have hEcases : e = ['/'] ∨ e = [] := by
        by_cases hcond : d1 ≠ ['/'] ∧ endsWithSlash s
        · rw [if_pos hcond] at hE; exact Or.inl hE.symm
        · rw [if_neg hcond] at hE; exact Or.inr hE.symm
      show parseDest (b ++ ':' :: (trimLeadSlash (joinSep '/' parts) ++ e)) =
        (b, trimLeadSlash (joinSep '/' parts) ++ e)
      cases parts with
      | nil =>
          simp only [joinSep, trimLeadSlash_nil, List.nil_append] at h2 ⊢
          rcases hEcases with hE1 | hE1
          · rw [hE1] at h2; exact absurd rfl h2
          · rw [hE1]
            simpa using parseDest_colon_end b hbmem
      | cons g gs =>
          obtain ⟨hgne, hgnm⟩ := hmem g (List.mem_cons_self _ _)
          have hjoin_ne : joinSep '/' (g :: gs) ≠ [] := by
            intro h0
            have hh := joinSep_cons_head? '/' g gs hgne
            rw [h0] at hh
            cases g with
            | nil => exact absurd rfl hgne
            | cons a as => simp at hh
          obtain ⟨c0, t, hj⟩ := List.exists_cons_of_ne_nil hjoin_ne
          have hh := joinSep_cons_head? '/' g gs hgne
          rw [hj] at hh
          have hc0g : c0 ∈ g := head?_mem_of_eq g c0 hh.symm
          have hc0 : c0 ≠ '/' := fun h0 => hgnm (h0 ▸ hc0g)
          have htrim : trimLeadSlash (joinSep '/' (g :: gs)) = joinSep '/' (g :: gs) := by
            rw [hj]
            exact trimLeadSlash_cons_ne c0 t hc0
          obtain ⟨L, glast, hconcat⟩ := (List.eq_nil_or_concat (g :: gs)).resolve_left (by simp)
          rw [List.concat_eq_append] at hconcat
          obtain ⟨hlne, hlnm⟩ := hmem glast (by rw [hconcat]; simp)
          have hlast : (joinSep '/' (g :: gs)).getLast? = glast.getLast? := by
            rw [hconcat]
            exact joinSep_concat_getLast? '/' L glast hlne
          obtain ⟨cl, hcl⟩ : ∃ cl, glast.getLast? = some cl := by
            cases hx : glast.getLast? with
            | none => rw [List.getLast?_eq_none_iff] at hx; exact absurd hx hlne
            | some cl => exact ⟨cl, rfl⟩
          have hclm : cl ∈ glast := List.mem_of_mem_getLast? (by rw [hcl]; rfl)
          have hclne : cl ≠ '/' := fun h0 => hlnm (h0 ▸ hclm)
          have hsplit : splitAll '/' (joinSep '/' (g :: gs)) = g :: gs :=
            splitAll_joinSep '/' (g :: gs) (by simp) (fun x hx => (hmem x hx).2)
          have hfilter : (g :: gs).filter (fun part => part ≠ ([] : List Char)) = g :: gs :=
            List.filter_eq_self.mpr (fun a ha => by simpa using (hmem a ha).1)
          rw [htrim]
          rcases hEcases with hE1 | hE1
          · -- e = ['/']: path keeps its trailing slash on re-parse
            subst hE1
            have h1 : splitFirst ':' (b ++ ':' :: (joinSep '/' (g :: gs) ++ ['/'])) =
                (b, some (joinSep '/' (g :: gs) ++ ['/'])) :=
              splitFirst_append_sep ':' b _ hbmem
            have hsplit2 : splitAll '/' (joinSep '/' (g :: gs) ++ ['/']) =
                (g :: gs) ++ [[]] := by
              rw [splitAll_concat_sep, hsplit]
            have hfilter2 : ((g :: gs) ++ [([] : List Char)]).filter
                (fun part => part ≠ ([] : List Char)) = g :: gs := by
              rw [List.filter_append, hfilter]
              simp
            have hpne : joinSep '/' (g :: gs) ++ ['/'] ≠ [] := by simp
            have hne2 : ¬ (joinSep '/' (g :: gs) ++ ['/'] = ['/']) := by
              rw [hj]
              intro h0
              simp only [List.cons_append, List.cons.injEq] at h0
              exact hc0 h0.1
            have hend : endsWithSlash (b ++ ':' :: (joinSep '/' (g :: gs) ++ ['/'])) = true := by
              rw [endsWithSlash_append_colon b _ hpne]
              simp [endsWithSlash, List.getLast?_concat]
            simp only [parseDest, h1, hsplit2, hfilter2, hend, hne2]
            rw [htrim]
            simp
            exact hjoin_ne
          · -- e = []: no trailing slash on re-parse either
            subst hE1
            rw [List.append_nil] at h2 ⊢
            have h1 : splitFirst ':' (b ++ ':' :: joinSep '/' (g :: gs)) =
                (b, some (joinSep '/' (g :: gs))) :=
              splitFirst_append_sep ':' b _ hbmem
            have hne2 : ¬ (joinSep '/' (g :: gs) = ['/']) := by
              rw [hj]
              intro h0
              simp only [List.cons.injEq] at h0
              exact hc0 h0.1
            have hend : endsWithSlash (b ++ ':' :: joinSep '/' (g :: gs)) = false := by
              rw [endsWithSlash_append_colon b _ hjoin_ne]
              simp only [endsWithSlash, hlast, hcl]
              simp [hclne]
            simp only [parseDest, h1, hsplit, hfilter, hend, hne2]
            rw [htrim]
            simp

theorem lastIndexOf_not_mem (c : Char) (l : List Char) (h : c ∉ l) : lastIndexOf c l = -1 := by
  induction l with
  | nil => rfl
  | cons a rest ih =>
      have ha : ¬ a = c := fun h0 => h (by simp [h0])
      have ih2 := ih (fun h0 => h (List.mem_cons_of_mem _ h0))
      simp [lastIndexOf, ih2, ha]

theorem lastIndexOf_append_cons (c : Char) (a t : List Char) (ht : c ∉ t) :
    lastIndexOf c (a ++ c :: t) = a.length := by
  induction a with
  | nil => simp [lastIndexOf, lastIndexOf_not_mem c t ht]
  | cons x xs ih =>
      have h1 : (0 : Int) ≤ (xs ++ c :: t).length - (xs ++ c :: t).length := by omega
      simp only [List.cons_append, lastIndexOf, ih]
      have h2 : (0 : Int) ≤ (xs.length : Int) := by positivity
      simp [h2]
      omega

theorem exists_last_split (c : Char) (l : List Char) (h : c ∈ l) :
    ∃ a t, l = a ++ c :: t ∧ c ∉ t := by
  induction l with
  | nil => simp at h
  | cons x xs ih =>
      by_cases hx : c ∈ xs
      · obtain ⟨a, t, heq, hnt⟩ := ih hx
        exact ⟨x :: a, t, by simp [heq], hnt⟩
      · have hxc : x = c := by
          rcases List.mem_cons.1 h with h1 | h1
          · exact h1.symm
          · exact absurd h1 hx
        exact ⟨[], xs, by simp [hxc], hx⟩

theorem takeWhile_append_stop (p : Char → Bool) (x : List Char) (s0 : Char) (z : List Char)
    (hx : ∀ y ∈ x, p y = true) (hs : p s0 = false) : (x ++ s0 :: z).takeWhile p = x := by
  induction x with
  | nil => simp [List.takeWhile_cons, hs]
  | cons a as ih =>
      simp only [List.cons_append, List.takeWhile_cons, hx a (by simp)]
      simp [ih (fun y hy => hx y (by simp [hy]))]

theorem takeWhile_of_all (p : Char → Bool) (l : List Char) (h : ∀ y ∈ l, p y = true) :
    l.takeWhile p = l := by
  induction l with
  | nil => rfl
  | cons a as ih =>
      simp only [List.takeWhile_cons, h a (by simp)]
      simp [ih (fun y hy => h y (by simp [hy]))]

theorem leafOf_no_slash (l : List Char) (h : '/' ∉ l) : leafOf l = l := by
  unfold leafOf
  rw [takeWhile_of_all _ _ (fun y hy => by
    have : y ≠ '/' := fun h0 => h (h0 ▸ (List.mem_reverse.1 hy))
    simpa using this)]
  exact List.reverse_reverse l

theorem leafOf_split (a t : List Char) (ht : '/' ∉ t) : leafOf (a ++ '/' :: t) = t := by
  unfold leafOf
  have h1 : (a ++ '/' :: t).reverse = t.reverse ++ '/' :: a.reverse := by
    rw [List.reverse_append, List.reverse_cons]
    simp
  rw [h1, takeWhile_append_stop _ _ _ _ (fun y hy => by
      have : y ≠ '/' := fun h0 => ht (h0 ▸ (List.mem_reverse.1 hy))
      simpa using this) (by simp)]
  exact List.reverse_reverse t

theorem trimPre_nil_pre (s : List Char) : trimPre s [] = s := by
  simp [trimPre, List.isPrefixOf]

theorem trimPre_append (a x : List Char) : trimPre (a ++ x) a = x := by
  have h1 : a.isPrefixOf (a ++ x) = true := by
    simp [ List.isPrefixOf_iff_prefix]
  simp [trimPre, h1]

/-- C8 (amended): for a recursive run rooted at `source` given WITHOUT
a trailing separator (and non-empty), a walked entry
`source ++ "/" ++ rel` gets the relative name
`leafOf source ++ "/" ++ rel` — the path relative to the parent of the
root, preserving the leaf directory name of the root — and that name has
no leading separator.  (For a root spelled with a trailing separator the
prefix computation swallows the leaf name — see `c8_counterexample`.) -/
theorem c8_relativeName_relative_to_parent (source rel : List Char) (h1 : source ≠ [])
    (h2 : source.getLast? ≠ some '/') :
    relativeName source (source ++ '/' :: rel) = leafOf source ++ '/' :: rel ∧
    (relativeName source (source ++ '/' :: rel)).head? ≠ some '/' := by
  by_cases hmem : '/' ∈ source
  · obtain ⟨a, t, heq, hnt⟩ := exists_last_split '/' source hmem
    have htne : t ≠ [] := by
      intro h0
      rw [heq, h0] at h2
      rw [List.getLast?_append_of_ne_nil a (by simp)] at h2
      simp at h2
    obtain ⟨t0, ts, ht0⟩ := List.exists_cons_of_ne_nil htne
    have ht0ne : t0 ≠ '/' := by
      intro h0
      exact hnt (by rw [ht0, h0]; simp)
    have hleaf : leafOf source = t := by rw [heq]; exact leafOf_split a t hnt
    have hidx : lastIndexOf '/' source = a.length := by
      rw [heq]; exact lastIndexOf_append_cons '/' a t hnt
    have hassoc : source ++ '/' :: rel = a ++ '/' :: (t ++ '/' :: rel) := by
      rw [heq]; simp
    cases a with
    | nil =>
        simp only [List.nil_append] at heq hassoc hidx
        have hdir : sourceDirOf source = [] := by
          simp [sourceDirOf, hidx]
        have hrn : relativeName source (source ++ '/' :: rel) = t ++ '/' :: rel := by
          rw [relativeName, hdir, trimPre_nil_pre, heq, List.cons_append, trimLeadSlash_cons_slash]
        rw [hrn, hleaf, ht0]
        refine ⟨rfl, ?_⟩
        simp only [List.cons_append, List.head?_cons]
        simp [ht0ne]
    | cons a0 as =>
        have hlen : (0 : Int) < (((a0 :: as : List Char)).length : Int) := by simp
        have hdir : sourceDirOf source = a0 :: as := by
          simp only [sourceDirOf, hidx]
          rw [if_pos hlen, heq]
          simp [List.take_left]
        have hrn : relativeName source (source ++ '/' :: rel) = t ++ '/' :: rel := by
          rw [relativeName, hdir, hassoc, trimPre_append, trimLeadSlash_cons_slash]
        rw [hrn, hleaf, ht0]
        refine ⟨rfl, ?_⟩
        simp only [List.cons_append, List.head?_cons]
        simp [ht0ne]
  · have hidx : lastIndexOf '/' source = -1 := lastIndexOf_not_mem '/' source hmem
    have hdir : sourceDirOf source = [] := by simp [sourceDirOf, hidx]
    have hleaf : leafOf source = source := leafOf_no_slash source hmem
    obtain ⟨s0, ss, hs0⟩ := List.exists_cons_of_ne_nil h1
    have hs0ne : s0 ≠ '/' := by
      intro h0
      exact hmem (by rw [hs0, h0]; simp)
    have htrim : relativeName source (source ++ '/' :: rel) = source ++ '/' :: rel := by
      rw [relativeName, hdir, trimPre_nil_pre, hs0]
      rw [List.cons_append]
      exact trimLeadSlash_cons_ne s0 _ hs0ne
    refine ⟨by rw [htrim, hleaf], ?_⟩
    rw [htrim, hs0]
    simp [hs0ne]

/-- C9 (amended): when some source is a directory and the recursive
flag is absent, the run does fail fatally, and nothing is emitted from
the offending directory or any later source; but units of the plain-file
sources preceding the first directory are emitted (and handed to the
upload engine) before the fatal exit, contrary to the claim that no
upload invocation occurs for any source. -/
theorem c9_walkSources_dir_fatal_amended (srcs : List SrcNode) (h : ∃ s ∈ srcs, isDirNode s = true) :
    walkSources false srcs =
      ((srcs.takeWhile (fun s => !isDirNode s)).flatMap walkOne, true) := by
  induction srcs with
  | nil =>
      obtain ⟨s, hs, _⟩ := h
      simp at hs
  | cons s rest ih =>
      by_cases hs : isDirNode s = true
      · simp [walkSources, hs, List.takeWhile_cons]
      · have hd2 : isDirNode s = false := by simpa using hs
        obtain ⟨x, hx, hxd⟩ := h
        have hxr : x ∈ rest := by
          rcases List.mem_cons.1 hx with h1 | h1
          · exact absurd (h1 ▸ hxd) (by simp [hd2])
          · exact h1
        have ih2 := ih ⟨x, hxr, hxd⟩
        simp [walkSources, hd2, List.takeWhile_cons, ih2]

/-- C4: with N selected-and-configured backends and M units, the engine
performs exactly N×M upload invocations, and they are organised in
rounds: round k consists precisely of the N invocations for unit k, one
per backend, and the `wg.Wait()` barrier finishes round k before round
k+1 begins (encoded by the list-of-rounds structure of `runBackups`). -/
theorem c4_upload_invocations (providers : List (List Char × Bool × Bool)) (path : List Char)
    (files : List SrcFile) :
    ((runBackups (configuredBackends providers) path files).flatten).length =
      (configuredBackends providers).length * files.length ∧
    ∀ (k : Nat) (f : SrcFile), files[k]? = some f →
      (runBackups (configuredBackends providers) path files)[k]? =
        some ((configuredBackends providers).map
          (fun b => ⟨b, f.path, destFor path f.base⟩)) := by
  constructor
  · rw [runBackups, List.length_flatten]
    rw [List.map_map]
    have h1 : (List.map (List.length ∘ fun f => List.map
        (fun b => (⟨b, f.path, destFor path f.base⟩ : Invocation))
        (configuredBackends providers)) files) =
        List.replicate files.length (configuredBackends providers).length := by
      rw [List.eq_replicate_iff]
      refine ⟨by simp, ?_⟩
      intro b hb
      simp only [List.mem_map] at hb
      obtain ⟨a, _, ha⟩ := hb
      simp [← ha]
    rw [h1, List.sum_replicate, smul_eq_mul, Nat.mul_comm]
  · intro k f hk
    rw [runBackups, List.getElem?_map, hk]
    rfl

theorem chunkErrText_ne_nil : "chunk error: ".toList ≠ [] := by decide

theorem collectErrs_foldl_eq_nil (received : List (List Char)) (acc : List Char) :
    received.foldl (fun errs e => chunkErrMsg e errs) acc = [] ↔ received = [] ∧ acc = [] := by
  induction received generalizing acc with
  | nil => simp
  | cons e rest ih =>
      simp only [List.foldl_cons, ih]
      constructor
      · rintro ⟨-, h2⟩
        simp +decide [chunkErrMsg, List.append_eq_nil] at h2
      · rintro ⟨h1, -⟩
        exact absurd h1 (by simp)

/-- C3: the finalize (`CompleteMultipartUpload`) call is made if and
only if no part reported an error and the context was not canceled.
All part outcomes are collected before the decision: `glacierCommit`
takes the full list drained from `errorc`, which is closed only after
`wg.Wait()`, i.e. after every part goroutine returned. -/
theorem c3_commit_iff_all_parts_ok_not_canceled (received : List (List Char)) (canceled : Bool) :
    glacierCommit received canceled = true ↔ received = [] ∧ canceled = false := by
  cases canceled
  · simp only [glacierCommit, if_neg (by simp : ¬ (false = true))]
    rw [List.isEmpty_iff]
    rw [collectErrs, collectErrs_foldl_eq_nil]
    simp
  · simp +decide [glacierCommit, canceledMsg]

/-- C2 (amended): for every object whose size is strictly below the
16 MB part size, `multiPartUpload` performs the single direct upload
and no multipart session is initiated.  (At size exactly equal to the
part size the code initiates a one-part multipart session — see
`c2_counterexample`.) -/
theorem c2_single_upload_below_partsize_amended (size : Int) (h0 : 0 ≤ size) (h1 : size < chunkSizeGlacier) :
    multiPartUpload size = UploadMode.single := by
  rw [multiPartUpload, if_pos]
  rw [Int.tdiv_eq_ediv h0 (by decide), Int.ediv_eq_zero_of_lt h0 h1]
  decide

/-- C10: whenever every required key is present but at least one has a
whitespace-only (empty after TrimSpace) value, `GetKeyValues` reaches
`err.Error()` with `err` still nil and panics instead of returning an
error — modelled as `Except.error ()`. -/
theorem c10_getKeyValues_nil_error_panic (keys : List (List Char))
    (cnf : List Char → Option (List Char))
    (hall : ∀ k ∈ keys, (cnf k).isSome = true)
    (hempty : ∃ k ∈ keys, ∃ v, cnf k = some v ∧ trimSpace v = []) :
    GetKeyValues keys cnf = Except.error () := by
  have hmiss : keys.filter (fun k => (cnf k).isNone) = [] := by
    rw [List.filter_eq_nil_iff]
    intro k hk
    have h0 := hall k hk
    simp [Option.isNone_iff_eq_none]
    rw [Option.isSome_iff_exists] at h0
    obtain ⟨v, hv⟩ := h0
    simp [hv]
  have hemp : keys.filter (fun k =>
      match cnf k with
      | some v => (trimSpace v).isEmpty
      | none => false) ≠ [] := by
    obtain ⟨k, hk, v, hv, htrim⟩ := hempty
    intro h0
    have hkmem : k ∈ keys.filter (fun k =>
        match cnf k with
        | some v => (trimSpace v).isEmpty
        | none => false) := by
      rw [List.mem_filter]
      refine ⟨hk, ?_⟩
      rw [hv]
      simp [htrim]
    rw [h0] at hkmem
    simp at hkmem
  simp only [GetKeyValues, hmiss]
  rw [if_pos hemp]
  simp

/-- C1 (failing input): at object size 33554431 = 2·16MB − 1 the part
loop emits a final range `(16777216, 33554431, 16777216)`: the clamp
`if end > size` misses the case `end = size`, so the last range ends at
byte index 33554431 = size (one past the last valid index 33554430),
the range lengths sum to size + 1 instead of size, and the last length
is 16777216 instead of the claimed size − P×(count−1) = 16777215. -/
theorem c1_chunk_plan_last_range_overruns :
    chunkPlanGlacier 33554431 =
      [(0, 16777215, 16777216), (16777216, 33554431, 16777216)] ∧
    ((chunkPlanGlacier 33554431).map (fun r => r.2.2)).sum = 33554432 ∧
    (33554431 : Int) - chunkSizeGlacier *
      (((chunkPlanGlacier 33554431).length : Int) - 1) = 16777215 := by
  refine ⟨?_, ?_, ?_⟩
  · simp +decide [chunkPlanGlacier, chunkPlan, chunkLoop, clampEnd, chunkSizeGlacier, MB]
  · simp +decide [chunkPlanGlacier, chunkPlan, chunkLoop, clampEnd, chunkSizeGlacier, MB]
  · simp +decide [chunkPlanGlacier, chunkPlan, chunkLoop, clampEnd, chunkSizeGlacier, MB]

/-- C2 (counterexample): at size exactly equal to the 16 MB part size,
the upload is NOT a single direct upload — `chunks = size/chunkSize = 1`
is not `< 1`, so a multipart session is initiated, refuting the claim
for S ≤ P. -/
theorem c2_counterexample : multiPartUpload 16777216 ≠ UploadMode.single := by
  simp +decide [multiPartUpload]

/-- C2 (witness): the amended theorem applied at size 5. -/
theorem c2_single_upload_below_partsize_amended_witness :
    (0 : Int) ≤ 5 ∧ (5 : Int) < chunkSizeGlacier ∧ multiPartUpload 5 = UploadMode.single :=
  ⟨by decide, by decide, c2_single_upload_below_partsize_amended 5 (by decide) (by decide)⟩

/-- C4 (witness): the fan-out theorem applied to one configured backend
and one unit. -/
theorem c4_upload_invocations_witness :
    ((runBackups (configuredBackends [(['g'], true, true)]) []
        [⟨['f'], ['f']⟩]).flatten).length =
      (configuredBackends [(['g'], true, true)]).length *
        ([(⟨['f'], ['f']⟩ : SrcFile)]).length ∧
    (runBackups (configuredBackends [(['g'], true, true)]) [] [⟨['f'], ['f']⟩])[0]? =
      some ((configuredBackends [(['g'], true, true)]).map
        (fun b => ⟨b, (⟨['f'], ['f']⟩ : SrcFile).path,
          destFor [] (⟨['f'], ['f']⟩ : SrcFile).base⟩)) :=
  ⟨(c4_upload_invocations [(['g'], true, true)] [] [⟨['f'], ['f']⟩]).1,
   (c4_upload_invocations [(['g'], true, true)] [] [⟨['f'], ['f']⟩]).2 0
     ⟨['f'], ['f']⟩ (by decide)⟩

/-- C5 (counterexample): with the cancellation token fired before any
part is launched, the claim says no part may start, but on a 32 MB
object the loop still launches both parts — the launch loop never
observes cancellation. -/
theorem c5_counterexample :
    launchedParts (2 * chunkSizeGlacier) (fun _ => true) ≠
      launchedPartsSpec (2 * chunkSizeGlacier) (fun _ => true) := by
  simp +decide [launchedParts, launchedPartsSpec, chunkPlanGlacier, chunkPlan, chunkLoop,
    clampEnd, chunkSizeGlacier, MB, takeUntilCancel]

/-- C5 (amended): the part-launching loop of `multiPartUpload` contains
no cancellation check, so every part of the chunk plan is launched no
matter when the token fires; cancellation is observed only after all
parts resolve, where it forces the error string to be non-empty, so the
finalize call is never attempted on a canceled run. -/
theorem c5_launch_ignores_cancellation (size : Int) (cancelBefore : Nat → Bool)
    (received : List (List Char)) :
    launchedParts size cancelBefore = chunkPlanGlacier size ∧
    glacierCommit received true = false := by
  refine ⟨rfl, ?_⟩
  simp +decide [glacierCommit, canceledMsg]

/-- C6: `parseDest` is a total function (it is defined for every input
string and has no failure mode), and it maps the five reference cases
exactly as the test suite expects. -/
theorem c6_parseDest_cases :
    parseDest "databag:/storage/notes.txt".toList =
      ("databag".toList, "storage/notes.txt".toList) ∧
    parseDest "backups:/".toList = ("backups".toList, "".toList) ∧
    parseDest "backups:/test/dir/".toList = ("backups".toList, "test/dir/".toList) ∧
    parseDest "backups:".toList = ("backups".toList, "".toList) ∧
    parseDest "backups".toList = ("backups".toList, "".toList) := by
  refine ⟨by decide, by decide, by decide, by decide, by decide⟩

/-- C7 (counterexample): `parseDest "backups://"` yields path "/", and
re-parsing the rejoined string gives path "" — normalization is not
idempotent on this input. -/
theorem c7_counterexample :
    parseDest ((parseDest "backups://".toList).1 ++ ':' ::
      (parseDest "backups://".toList).2) ≠ parseDest "backups://".toList := by
  decide

/-- C7 (witness): the amended idempotence theorem applied to the
reference destination string. -/
theorem c7_parseDest_idempotent_amended_witness :
    (parseDest "databag:/storage/notes.txt".toList).2 ≠ ['/'] ∧
    parseDest ((parseDest "databag:/storage/notes.txt".toList).1 ++ ':' ::
        (parseDest "databag:/storage/notes.txt".toList).2) =
      parseDest "databag:/storage/notes.txt".toList :=
  ⟨by decide, c7_parseDest_idempotent_amended "databag:/storage/notes.txt".toList (by decide)⟩

/-- C8 (counterexample): for the root "dir/" spelled with a trailing
separator, `prefix = source[0:LastIndex(source, "/")] = "dir"`, and the
cleaned walk entry "dir/file" gets relative name "file": the leaf
directory name "dir" of the root is dropped, not preserved, so the
entry is not laid out relative to the parent of the root ("dir/file")
as the claim requires for every recursive run. -/
theorem c8_counterexample :
    relativeName "dir/".toList "dir/file".toList = "file".toList ∧
    relativeName "dir/".toList "dir/file".toList ≠ "dir/file".toList := by
  refine ⟨by decide, by decide⟩

/-- C8 (witness): the amended relative-name theorem applied to root "d"
and entry suffix "x". -/
theorem c8_relativeName_relative_to_parent_witness :
    (['d'] : List Char) ≠ [] ∧ (['d'] : List Char).getLast? ≠ some '/' ∧
    relativeName ['d'] (['d'] ++ '/' :: ['x']) = leafOf ['d'] ++ '/' :: ['x'] ∧
    (relativeName ['d'] (['d'] ++ '/' :: ['x'])).head? ≠ some '/' :=
  ⟨by decide, by decide,
   (c8_relativeName_relative_to_parent ['d'] ['x'] (by decide) (by decide)).1,
   (c8_relativeName_relative_to_parent ['d'] ['x'] (by decide) (by decide)).2⟩

/-- C9 (counterexample): with sources = [plain file "a", directory "d"]
and no recursive flag, the fatal error fires, but the unit for "a" has
already been emitted to the upload engine — refuting the claim that no
upload invocation occurs for any source. -/
theorem c9_counterexample :
    walkSources false [SrcNode.plain ['a'], SrcNode.dir ['d'] []] =
      ([⟨['a'], ['a']⟩], true) ∧
    (walkSources false [SrcNode.plain ['a'], SrcNode.dir ['d'] []]).1 ≠ [] := by
  refine ⟨by decide, by decide⟩

/-- C9 (witness): the amended theorem applied to a single directory
source. -/
theorem c9_walkSources_dir_fatal_amended_witness :
    walkSources false [SrcNode.dir ['d'] [['e']]] =
      ((([SrcNode.dir ['d'] [['e']]].takeWhile (fun s => !isDirNode s)).flatMap walkOne),
        true) :=
  c9_walkSources_dir_fatal_amended [SrcNode.dir ['d'] [['e']]] (by decide)

/-- C10 (witness): the panic theorem applied to one required key whose
configured value is a single space. -/
theorem c10_getKeyValues_nil_error_panic_witness :
    (∀ k ∈ [[('a' : Char)]],
      (((fun k => if k = ['a'] then some [' '] else none) : List Char → Option (List Char))
        k).isSome = true) ∧
    GetKeyValues [['a']]
      (fun k => if k = ['a'] then some [' '] else none) = Except.error () :=
  ⟨by decide,
   c10_getKeyValues_nil_error_panic [['a']]
     (fun k => if k = ['a'] then some [' '] else none)
     (by decide)
     ⟨['a'], by decide, [' '], by decide, by decide⟩⟩
